import Mathlib

/-!
Verification of the btc-spread-test-pipeline aggregation engine.

The Python sources under `render_app/` (chiefly `process_data.py` and
`scalable_json_generator.py`) are shallowly embedded here:

* pandas `DataFrame`s become Lean `List`s of structure records;
* `drop_duplicates(subset=[k], keep="last")` becomes `dropDuplicatesKeepLast`;
* `sort_values(k)` becomes the stable insertion sort `sortAsc` (pandas' tie
  order with the default quicksort is unspecified; the stable sort is the
  deterministic refinement used throughout this development);
* `DataFrame.tail(n)` becomes `trimTail`;
* timestamps are `Nat` (seconds since epoch, already parsed); float cells that
  may be NaN/Infinity are modelled by the inductive `Cell`;
* the local/remote file stores touched by the rotation manager become an
  association list from an inductive key type to byte lists.
-/

namespace BTCSpread

/-- Pandas `drop_duplicates(subset=[key], keep="last")`: keep, for each key
value, only the last row carrying it, preserving the relative order of the
kept rows. A row is kept iff its key does not occur again later in the list. -/
def dropDuplicatesKeepLast {α : Type} {κ : Type} [DecidableEq κ] (key : α → κ) :
    List α → List α
  | [] => []
  | x :: xs =>
    if key x ∈ xs.map key then dropDuplicatesKeepLast key xs
    else x :: dropDuplicatesKeepLast key xs

/-- Stable insertion step: `x` is placed before the first element that does not
strictly precede it, so elements comparing equal keep their original order. -/
def insertStable {α : Type} (before : α → α → Bool) (x : α) : List α → List α
  | [] => [x]
  | y :: ys => if before y x then y :: insertStable before x ys else x :: y :: ys

/-- Stable insertion sort with strict-precedence test `before`. -/
def stableSort {α : Type} (before : α → α → Bool) : List α → List α
  | [] => []
  | x :: xs => insertStable before x (stableSort before xs)

/-- Pandas `sort_values(key)` ascending, modelled as a stable sort. -/
def sortAsc {α : Type} (key : α → Nat) (l : List α) : List α :=
  stableSort (fun a b => decide (key a < key b)) l

/-- The trim step `if len(df) > cap: df = df.tail(cap)`: when over the cap,
keep only the last `cap` rows. -/
def trimTail {α : Type} (cap : Nat) (l : List α) : List α :=
  if cap < l.length then l.drop (l.length - cap) else l

/-- One raw per-second record of a shard CSV, with the columns the pipeline
reads: `timestamp` (parsed, seconds), `price`, `spread_avg_L20_pct`. -/
structure Sample where
  timestamp : Nat
  price : ℚ
  spread_avg_L20_pct : ℚ
deriving DecidableEq

/-- One shard CSV file as the loader sees it: its modification time and the
outcome of `pd.read_csv` (`none` models a parse failure, which the loader
logs and skips). -/
structure CsvShard where
  mtime : Nat
  parsed : Option (List Sample)
deriving DecidableEq

/-- The per-file step of the loader loop: a file that fails to parse or
parses empty contributes nothing to `all_dfs`. -/
def shardRows (s : CsvShard) : Option (List Sample) :=
  match s.parsed with
  | none => none
  | some df => if df.isEmpty then none else some df

/-- The file ordering of `load_all_historical_data`:
`sorted(all_csv_files, key=os.path.getmtime, reverse=True)` — most recently
modified file first (stable). -/
def sortDescMtime (shards : List CsvShard) : List CsvShard :=
  stableSort (fun a b => decide (b.mtime < a.mtime)) shards

/-- The row sequence fed to `pd.concat`: the parsed nonempty shards in the
loader's file order, concatenated. -/
def discoveryConcat (shards : List CsvShard) : List Sample :=
  ((sortDescMtime shards).filterMap shardRows).flatten

/-- Embedding of `process_data.load_all_historical_data`: glob the shard
files, order them newest-modification-first, parse each (skipping failures
and empty files), concatenate, sort by timestamp, drop duplicate timestamps
keeping the last occurrence. Returns `none` ("no data") when no file yields
rows. -/
def load_all_historical_data (shards : List CsvShard) : Option (List Sample) :=
  if shards.isEmpty then none
  else if ((sortDescMtime shards).filterMap shardRows).isEmpty then none
  else
    some (dropDuplicatesKeepLast Sample.timestamp
      (sortAsc Sample.timestamp ((sortDescMtime shards).filterMap shardRows).flatten))

/-- One resampled output row: bucket start `time`, last `price` in the
bucket, bucket mean of `spread_avg_L20_pct`. -/
structure MinuteCandle where
  time : Nat
  price : ℚ
  spread_avg_L20_pct : ℚ
deriving DecidableEq

/-- The samples of `samples` falling in resample bucket `k` of width `w`
seconds (pandas buckets are aligned to fixed calendar boundaries: a sample at
`t` lands in bucket `t / w`). -/
def bucket_samples (w k : Nat) (samples : List Sample) : List Sample :=
  samples.filter (fun s => decide (s.timestamp / w = k))

/-- The bucket indices that received at least one sample, in order of first
occurrence de-duplicated; for chronologically sorted input this is the
increasing list of non-empty buckets.  Buckets with no samples aggregate to
all-NaN rows which `.dropna()` removes, so they never get a key. -/
def bucket_keys (w : Nat) (samples : List Sample) : List Nat :=
  dropDuplicatesKeepLast id (samples.map (fun s => s.timestamp / w))

/-- The `.agg` dictionary of the resampler for one bucket:
`price: "last"`, `spread_avg_L20_pct: "mean"`. -/
def bucket_agg (w k : Nat) (samples : List Sample) : MinuteCandle :=
  { time := k * w
    price :=
      match (bucket_samples w k samples).getLast? with
      | some s => s.price
      | none => 0
    spread_avg_L20_pct :=
      ((bucket_samples w k samples).map Sample.spread_avg_L20_pct).sum /
        ((bucket_samples w k samples).length : ℚ) }

/-- Embedding of `df.resample(width).agg({price: last, spread: mean}).dropna()`
as used by `resample_to_1min`, `resample_to_10min` and
`resample_and_calculate_mas`: one candle per non-empty bucket. -/
def resample_agg (w : Nat) (samples : List Sample) : List MinuteCandle :=
  (bucket_keys w samples).map (fun k => bucket_agg w k samples)

/-- The rolling window of `rolling(window=N)` at row `i` over the metric
column `v`: the last `N` rows among rows `0..i`.  After the resampler's
`.dropna()` the column has no missing values, so `rolling(N).count()` at row
`i` is exactly the length of this window. -/
def rolling_count (N : Nat) (v : List ℚ) (i : Nat) : Nat :=
  ((v.take (i + 1)).drop (i + 1 - N)).length

/-- The `rolling(window=N, min_periods=1).mean()` value at row `i`: partial
window average over the rows present. -/
def rolling_mean (N : Nat) (v : List ℚ) (i : Nat) : ℚ :=
  let window := (v.take (i + 1)).drop (i + 1 - N)
  window.sum / (window.length : ℚ)

/-- The `ma_N_valid` column:
`df["spread_avg_L20_pct"].rolling(window=N).count() >= N`, one Bool per row. -/
def ma_valid_column (N : Nat) (v : List ℚ) : List Bool :=
  (List.range v.length).map (fun i => decide (N ≤ rolling_count N v i))

/-- Embedding of `process_data.resample_and_calculate_mas`: `None` in,
`None` out; empty frame in, `None` out; otherwise the 1-minute resample
(60-second buckets; the MA columns are modelled by `rolling_mean` /
`ma_valid_column` over its metric column). -/
def resample_and_calculate_mas (df : Option (List Sample)) :
    Option (List MinuteCandle) :=
  match df with
  | none => none
  | some l => if l.isEmpty then none else some (resample_agg 60 l)

/-- Embedding of the data path of `process_data.process_csv_to_json`: load,
short-circuit on "no data", resample, short-circuit again.  A `none` result
is the normal no-data outcome; the function is total, so no exception is
raised on that path. -/
def process_csv_to_json (shards : List CsvShard) : Option (List MinuteCandle) :=
  match load_all_historical_data shards with
  | none => none
  | some df_combined =>
    match resample_and_calculate_mas (some df_combined) with
    | none => none
    | some df_processed => some df_processed

/-- The merge core shared by `generate_recent_json` and
`generate_historical_json` when both the prior view and the new data are
nonempty: `pd.concat([existing_data, new_data])`, then
`drop_duplicates(subset=["time_dt"], keep="last")` (new rows come after
existing rows, so the new computation wins ties), then
`sort_values("time_dt")`.  Timestamps are modelled as already parsed, so the
defensive `dropna(subset=["time_dt"])` is the identity here. -/
def viewMergeCombined (existing newData : List MinuteCandle) : List MinuteCandle :=
  sortAsc MinuteCandle.time
    (dropDuplicatesKeepLast MinuteCandle.time (existing ++ newData))

/-- Embedding of the merge-and-trim skeleton of `generate_recent_json` /
`generate_historical_json`: when the prior view is absent/empty the new data
is used as-is, when the new data is empty the prior view is used as-is,
otherwise the deduplicating merge runs; finally the row cap is enforced by
`tail`. -/
def generate_view_json (cap : Nat) (existing newData : List MinuteCandle) :
    List MinuteCandle :=
  let combined :=
    if existing.isEmpty then newData
    else if newData.isEmpty then existing
    else viewMergeCombined existing newData
  trimTail cap combined

/-- `RECENT_JSON_LIMIT = 2880` of `generate_recent_json`. -/
def RECENT_JSON_LIMIT : Nat := 2880

/-- `HISTORICAL_JSON_LIMIT = 9000` of `generate_historical_json`. -/
def HISTORICAL_JSON_LIMIT : Nat := 9000

/-- Embedding of `generate_recent_json` (merge semantics on parsed rows). -/
def generate_recent_json (existing newData : List MinuteCandle) :
    List MinuteCandle :=
  generate_view_json RECENT_JSON_LIMIT existing newData

/-- Embedding of `generate_historical_json` (merge semantics on parsed rows). -/
def generate_historical_json (existing newData : List MinuteCandle) :
    List MinuteCandle :=
  generate_view_json HISTORICAL_JSON_LIMIT existing newData

/-- The recency selection shared by `process_data.save_recent_data`
(24-hour cutoff) and `generate_recent_json` (48-hour cutoff): keep the rows
at or after the cutoff, but if none qualify fall back to the whole series. -/
def save_recent_select (cutoff : Nat) (rows : List MinuteCandle) :
    List MinuteCandle :=
  let recent := rows.filter (fun r => decide (cutoff ≤ r.time))
  if recent.isEmpty then rows else recent

/-- File keys touched by the rotation manager: the live `historical.json`,
the dated archives `historical_YYYY-MM-DD.json` (the date as a number), and
any unrelated file. -/
inductive DataKey where
  | historical : DataKey
  | archive : Nat → DataKey
  | other : Nat → DataKey
deriving DecidableEq

/-- The data directory as an association list from file key to file bytes. -/
abbrev FileStore := List (DataKey × List Nat)

/-- File existence / content lookup (`os.path.exists` + read). -/
def fsLookup : FileStore → DataKey → Option (List Nat)
  | [], _ => none
  | (p, c) :: rest, q => if p = q then some c else fsLookup rest q

/-- `os.remove` / the removal half of `os.rename`. -/
def fsRemove (fs : FileStore) (p : DataKey) : FileStore :=
  fs.filter (fun e => decide (e.1 ≠ p))

/-- Embedding of `process_data.rotate_historical_file`.  `archiveDate` is the
date derived from the file's modification time.  Returns the new store and a
flag that is `true` when the rotation completed without raising (the Python
body is wrapped in try/except and, on the paths modelled here, performs no
failing operation).  If the dated archive already exists the current view is
removed and the archive is left untouched. -/
def rotate_historical_file (archiveDate : Nat) (fs : FileStore) :
    FileStore × Bool :=
  match fsLookup fs DataKey.historical with
  | none => (fs, true)
  | some content =>
    match fsLookup fs (DataKey.archive archiveDate) with
    | none =>
      ((DataKey.archive archiveDate, content) :: fsRemove fs DataKey.historical,
        true)
    | some _ => (fsRemove fs DataKey.historical, true)

/-- One float cell of a record about to be serialized: a finite number, an
explicit null, or one of the IEEE specials NaN / +Infinity / -Infinity. -/
inductive Cell where
  | num : ℚ → Cell
  | null : Cell
  | nan : Cell
  | inf : Cell
  | neginf : Cell
deriving DecidableEq

/-- The JSON tokens Python's `json.dump` can emit for one cell.  With the
default `allow_nan=True` the specials are emitted as the bare non-JSON
tokens `NaN` / `Infinity` / `-Infinity`. -/
inductive JsonToken where
  | numTok : ℚ → JsonToken
  | nullTok : JsonToken
  | nanTok : JsonToken
  | infinityTok : JsonToken
  | negInfinityTok : JsonToken
deriving DecidableEq

/-- The sanitization `df.replace({np.nan: None, np.inf: None, -np.inf: None})`
of `write_json_records`. -/
def sanitizeCell : Cell → Cell
  | Cell.nan => Cell.null
  | Cell.inf => Cell.null
  | Cell.neginf => Cell.null
  | c => c

/-- `json.dump` on one cell: specials serialize as bare tokens when
`allow_nan` is true and raise `ValueError` (modelled as `none`) when
`allow_nan=False`. -/
def dumpCell (allowNan : Bool) : Cell → Option JsonToken
  | Cell.num q => some (JsonToken.numTok q)
  | Cell.null => some JsonToken.nullTok
  | Cell.nan => if allowNan then some JsonToken.nanTok else none
  | Cell.inf => if allowNan then some JsonToken.infinityTok else none
  | Cell.neginf => if allowNan then some JsonToken.negInfinityTok else none

/-- `json.dump` over one record (failure of any cell fails the dump). -/
def dumpRow (allowNan : Bool) : List Cell → Option (List JsonToken)
  | [] => some []
  | c :: cs =>
    match dumpCell allowNan c, dumpRow allowNan cs with
    | some t, some ts => some (t :: ts)
    | _, _ => none

/-- `json.dump` over a list of records. -/
def json_dump (allowNan : Bool) : List (List Cell) → Option (List (List JsonToken))
  | [] => some []
  | r :: rs =>
    match dumpRow allowNan r, json_dump allowNan rs with
    | some t, some ts => some (t :: ts)
    | _, _ => none

/-- Embedding of `scalable_json_generator.write_json_records`: replace the
specials with null, then dump with `allow_nan=False`.  Used for
`recent.json`, `historical.json` and the daily archives. -/
def write_json_records (records : List (List Cell)) :
    Option (List (List JsonToken)) :=
  json_dump false (records.map (fun row => row.map sanitizeCell))

/-- The serialization step of `process_data.save_recent_data`:
`json.dump(records, f, separators=...)` with no sanitization and the default
`allow_nan=True`. -/
def save_recent_data_dump (records : List (List Cell)) :
    Option (List (List JsonToken)) :=
  json_dump true records

/-- The token a sanitized cell always dumps to. -/
def cellToken (c : Cell) : JsonToken :=
  match sanitizeCell c with
  | Cell.num q => JsonToken.numTok q
  | _ => JsonToken.nullTok

/-- A token that is strictly JSON: not one of the bare special tokens. -/
def cleanToken (t : JsonToken) : Prop :=
  t ≠ JsonToken.nanTok ∧ t ≠ JsonToken.infinityTok ∧ t ≠ JsonToken.negInfinityTok

/-- A candle list with strictly increasing times: the published-View
invariant (unique timestamps, ascending order). -/
abbrev strictByTime (l : List MinuteCandle) : Prop :=
  List.Pairwise (fun a b => a.time < b.time) l

/-- The View Merger contract as the spec words it (claim C2): the result is
the union of prior and new rows deduplicated by `time` with the new rows
winning ties, sorted ascending, capped at `cap` rows, keeping the most
recent rows and dropping the oldest first. -/
def MergeSpec (cap : Nat) (ex newData result : List MinuteCandle) : Prop :=
  (∀ r ∈ result, r ∈ ex ∨ r ∈ newData) ∧
  (∀ r ∈ result, r.time ∈ newData.map MinuteCandle.time → r ∈ newData) ∧
  (result.map MinuteCandle.time).Nodup ∧
  strictByTime result ∧
  result.length ≤ cap ∧
  ((dropDuplicatesKeepLast id ((ex ++ newData).map MinuteCandle.time)).length ≤ cap →
    ∀ t ∈ (ex ++ newData).map MinuteCandle.time, t ∈ result.map MinuteCandle.time) ∧
  (cap ≤ (dropDuplicatesKeepLast id ((ex ++ newData).map MinuteCandle.time)).length →
    result.length = cap) ∧
  (∀ r, (r ∈ ex ∨ r ∈ newData) → r.time ∉ result.map MinuteCandle.time →
    ∀ q ∈ result, r.time < q.time)

/-- The Shard Loader postcondition established below for claim C1 (as
amended): unique timestamps, chronological order, and each kept record is the
last occurrence of its timestamp in the loader's concatenation order (which
lists shards newest-modification-first), with no timestamp lost. -/
def LoaderSpec (shards : List CsvShard) (l : List Sample) : Prop :=
  (l.map Sample.timestamp).Nodup ∧
  List.Pairwise (fun a b : Sample => a.timestamp ≤ b.timestamp) l ∧
  (∀ r ∈ l, ((discoveryConcat shards).filter
      (fun y => decide (y.timestamp = r.timestamp))).getLast? = some r) ∧
  (∀ t ∈ (discoveryConcat shards).map Sample.timestamp, t ∈ l.map Sample.timestamp)

/-- The Resampler grid invariant of claim C4 as amended: strictly increasing
on-grid times, consecutive candles a positive multiple of the width apart,
and no candle for an empty bucket. -/
def GridSpec (w : Nat) (samples : List Sample) : Prop :=
  List.Pairwise (fun a b : MinuteCandle => a.time < b.time) (resample_agg w samples) ∧
  (∀ c ∈ resample_agg w samples, w ∣ c.time) ∧
  List.Chain' (fun a b : MinuteCandle => ∃ m, 0 < m ∧ b.time = a.time + m * w)
    (resample_agg w samples) ∧
  (∀ k, bucket_samples w k samples = [] →
    k * w ∉ (resample_agg w samples).map MinuteCandle.time)

/-- A candle carries exactly the aggregates of bucket `k`: bucket-start time,
last sample's price, arithmetic mean of the metric. -/
def CandleAggOf (w k : Nat) (samples : List Sample) (c : MinuteCandle) : Prop :=
  c.time = k * w ∧
  (∃ s, (bucket_samples w k samples).getLast? = some s ∧ c.price = s.price) ∧
  c.spread_avg_L20_pct =
    ((bucket_samples w k samples).map Sample.spread_avg_L20_pct).sum /
      ((bucket_samples w k samples).length : ℚ)

/-- The Resampler contract of claim C8: every non-empty bucket yields exactly
one candle with the contracted aggregates, and empty buckets yield nothing. -/
def ResampleSpec (w : Nat) (samples : List Sample) : Prop :=
  (∀ k, bucket_samples w k samples ≠ [] →
    ∃ c ∈ resample_agg w samples, CandleAggOf w k samples c) ∧
  (∀ c ∈ resample_agg w samples, ∃ k,
    bucket_samples w k samples ≠ [] ∧ CandleAggOf w k samples c) ∧
  ((resample_agg w samples).map MinuteCandle.time).Nodup ∧
  (∀ k, bucket_samples w k samples = [] →
    ∀ c ∈ resample_agg w samples, c.time ≠ k * w)

/-- The Publisher contract of claim C6 for `write_json_records`: serialization
always succeeds, emits no bare NaN / Infinity / -Infinity token, maps every
special cell to an explicit null token and every finite cell to its number
token, positionally. -/
def StrictSerializationSpec (records : List (List Cell)) : Prop :=
  ∃ toks, write_json_records records = some toks ∧
    toks.length = records.length ∧
    (∀ row ∈ toks, ∀ t ∈ row, cleanToken t) ∧
    (∀ (i : Nat) (row : List Cell), records[i]? = some row →
      ∃ trow : List JsonToken, toks[i]? = some trow ∧ trow.length = row.length ∧
        ∀ (j : Nat) (c : Cell), row[j]? = some c →
          ((c = Cell.nan ∨ c = Cell.inf ∨ c = Cell.neginf) →
            trow[j]? = some JsonToken.nullTok) ∧
          (∀ q, c = Cell.num q → trow[j]? = some (JsonToken.numTok q)))

section DropDupLemmas

variable {α : Type} {κ : Type} [DecidableEq κ]

theorem dropDup_sublist (key : α → κ) (l : List α) :
    (dropDuplicatesKeepLast key l).Sublist l := by
  induction l with
  | nil => simp [dropDuplicatesKeepLast]
  | cons x xs ih =>
    rw [dropDuplicatesKeepLast]
    split
    · exact ih.trans (List.sublist_cons_self x xs)
    · exact ih.cons₂ x

theorem mem_of_mem_dropDup {key : α → κ} {l : List α} {a : α}
    (h : a ∈ dropDuplicatesKeepLast key l) : a ∈ l :=
  (dropDup_sublist key l).subset h

theorem nodup_map_dropDup (key : α → κ) (l : List α) :
    ((dropDuplicatesKeepLast key l).map key).Nodup := by
  induction l with
  | nil => simp [dropDuplicatesKeepLast]
  | cons x xs ih =>
    rw [dropDuplicatesKeepLast]
    split
    · exact ih
    · rename_i h
      simp only [List.map_cons, List.nodup_cons]
      refine ⟨fun hmem => h ?_, ih⟩
      exact ((dropDup_sublist key xs).map key).subset hmem

theorem mem_map_key_dropDup (key : α → κ) (l : List α) (k : κ) :
    k ∈ (dropDuplicatesKeepLast key l).map key ↔ k ∈ l.map key := by
  induction l with
  | nil => simp [dropDuplicatesKeepLast]
  | cons x xs ih =>
    rw [dropDuplicatesKeepLast]
    split
    · rename_i h
      rw [ih]
      simp only [List.map_cons, List.mem_cons]
      constructor
      · exact Or.inr
      · rintro (rfl | hk)
        · exact h
        · exact hk
    · simp [ih]

theorem dropDup_eq_self {key : α → κ} {l : List α}
    (h : (l.map key).Nodup) : dropDuplicatesKeepLast key l = l := by
  induction l with
  | nil => rfl
  | cons x xs ih =>
    simp only [List.map_cons, List.nodup_cons] at h
    rw [dropDuplicatesKeepLast, if_neg h.1, ih h.2]

theorem dropDup_append {key : α → κ} {l₁ l₂ : List α}
    (h : ∀ a ∈ l₁, key a ∈ l₂.map key) :
    dropDuplicatesKeepLast key (l₁ ++ l₂) = dropDuplicatesKeepLast key l₂ := by
  induction l₁ with
  | nil => rfl
  | cons x l₁ ih =>
    have hx : key x ∈ (l₁ ++ l₂).map key := by
      rw [List.map_append, List.mem_append]
      exact Or.inr (h x (List.mem_cons_self x l₁))
    rw [List.cons_append, dropDuplicatesKeepLast, if_pos hx]
    exact ih fun a ha => h a (List.mem_cons_of_mem x ha)

theorem dropDup_ne_nil {key : α → κ} {l : List α} (h : l ≠ []) :
    dropDuplicatesKeepLast key l ≠ [] := by
  induction l with
  | nil => exact absurd rfl h
  | cons x xs ih =>
    rw [dropDuplicatesKeepLast]
    split
    · rename_i hmem
      have hxs : xs ≠ [] := by
        intro hnil
        rw [hnil] at hmem
        simp at hmem
      exact ih hxs
    · exact List.cons_ne_nil x _

theorem map_key_dropDup (key : α → κ) (l : List α) :
    (dropDuplicatesKeepLast key l).map key =
      dropDuplicatesKeepLast id (l.map key) := by
  induction l with
  | nil => rfl
  | cons x xs ih =>
    simp only [List.map_cons]
    rw [dropDuplicatesKeepLast, dropDuplicatesKeepLast]
    by_cases h : key x ∈ xs.map key
    · rw [if_pos h, if_pos (by simpa using h), ih]
    · rw [if_neg h, if_neg (by simpa using h), List.map_cons, ih]

theorem dropDup_append_mem_right {key : α → κ} {l₁ l₂ : List α} {r : α}
    (hr : r ∈ dropDuplicatesKeepLast key (l₁ ++ l₂))
    (hk : key r ∈ l₂.map key) : r ∈ l₂ := by
  induction l₁ with
  | nil => exact mem_of_mem_dropDup hr
  | cons x l₁ ih =>
    rw [List.cons_append, dropDuplicatesKeepLast] at hr
    split at hr
    · exact ih hr
    · rename_i h
      rcases List.mem_cons.mp hr with he | hmem
      · subst he
        exact absurd (by rw [List.map_append, List.mem_append]; exact Or.inr hk) h
      · exact ih hmem

theorem filter_getLast_dropDup {key : α → κ} {l : List α} {a : α}
    (ha : a ∈ dropDuplicatesKeepLast key l) :
    (l.filter (fun y => decide (key y = key a))).getLast? = some a := by
  induction l with
  | nil => simp [dropDuplicatesKeepLast] at ha
  | cons x xs ih =>
    by_cases h : key x ∈ xs.map key
    · rw [dropDuplicatesKeepLast, if_pos h] at ha
      have hlast := ih ha
      rw [List.filter_cons]
      split
      · have hne : xs.filter (fun y => decide (key y = key a)) ≠ [] := by
          intro hnil
          rw [hnil] at hlast
          simp at hlast
        obtain ⟨y, ys, hys⟩ := List.exists_cons_of_ne_nil hne
        rw [hys] at hlast ⊢
        rw [List.getLast?_cons_cons]
        exact hlast
      · exact ih ha
    · rw [dropDuplicatesKeepLast, if_neg h] at ha
      rcases List.mem_cons.mp ha with he | hmem
      · subst he
        have hfil : xs.filter (fun y => decide (key y = key a)) = [] := by
          rw [List.filter_eq_nil_iff]
          intro y hy hkey
          rw [decide_eq_true_eq] at hkey
          exact h (hkey ▸ List.mem_map_of_mem key hy)
        rw [List.filter_cons, if_pos (by simp), hfil]
        rfl
      · have hk : key x ≠ key a := by
          intro he
          have hmem2 : a ∈ xs := mem_of_mem_dropDup hmem
          exact h (he ▸ List.mem_map_of_mem key hmem2)
        rw [List.filter_cons, if_neg (by simpa using hk)]
        exact ih hmem

end DropDupLemmas

section SortLemmas

variable {α : Type}

theorem insertStable_perm (before : α → α → Bool) (x : α) (l : List α) :
    (insertStable before x l).Perm (x :: l) := by
  induction l with
  | nil => exact List.Perm.refl _
  | cons y ys ih =>
    rw [insertStable]
    split
    · exact (ih.cons y).trans (List.Perm.swap x y ys)
    · exact List.Perm.refl _

theorem stableSort_perm (before : α → α → Bool) (l : List α) :
    (stableSort before l).Perm l := by
  induction l with
  | nil => exact List.Perm.refl _
  | cons x xs ih =>
    rw [stableSort]
    exact (insertStable_perm before x (stableSort before xs)).trans (ih.cons x)

theorem insertStable_sorted (key : α → Nat) (x : α) {l : List α}
    (h : List.Pairwise (fun a b => key a ≤ key b) l) :
    List.Pairwise (fun a b => key a ≤ key b)
      (insertStable (fun a b => decide (key a < key b)) x l) := by
  induction l with
  | nil => simp [insertStable]
  | cons y ys ih =>
    rw [insertStable]
    rw [List.pairwise_cons] at h
    split
    · rename_i hlt
      rw [decide_eq_true_eq] at hlt
      rw [List.pairwise_cons]
      refine ⟨fun b hb => ?_, ih h.2⟩
      rcases List.mem_cons.mp ((insertStable_perm _ x ys).mem_iff.mp hb) with hbx | hby
      · subst hbx
        exact le_of_lt hlt
      · exact h.1 b hby
    · rename_i hge
      rw [decide_eq_true_eq] at hge
      push_neg at hge
      rw [List.pairwise_cons]
      refine ⟨fun b hb => ?_, List.pairwise_cons.mpr h⟩
      rcases List.mem_cons.mp hb with hby | hbys
      · subst hby
        exact hge
      · exact le_trans hge (h.1 b hbys)

theorem sortAsc_sorted (key : α → Nat) (l : List α) :
    List.Pairwise (fun a b => key a ≤ key b) (sortAsc key l) := by
  induction l with
  | nil => simp [sortAsc, stableSort]
  | cons x xs ih => exact insertStable_sorted key x ih

theorem sortAsc_perm (key : α → Nat) (l : List α) :
    (sortAsc key l).Perm l :=
  stableSort_perm _ l

theorem filter_insertStable (key : α → Nat) (k : Nat) (x : α) (l : List α) :
    (insertStable (fun a b => decide (key a < key b)) x l).filter
        (fun y => decide (key y = k)) =
      if key x = k then x :: l.filter (fun y => decide (key y = k))
      else l.filter (fun y => decide (key y = k)) := by
  induction l with
  | nil =>
    simp only [insertStable, List.filter_cons, List.filter_nil]
    by_cases hx : key x = k
    · simp [hx]
    · simp [hx]
  | cons y ys ih =>
    rw [insertStable]
    split
    · rename_i hlt
      rw [decide_eq_true_eq] at hlt
      by_cases hy : key y = k
      · have hx : key x ≠ k := by omega
        simp [List.filter_cons, ih, hx, hy]
      · by_cases hx : key x = k
        · simp [List.filter_cons, ih, hx, hy]
        · simp [List.filter_cons, ih, hx, hy]
    · by_cases hx : key x = k
      · simp [List.filter_cons, hx]
      · simp [List.filter_cons, hx]

theorem filter_sortAsc (key : α → Nat) (k : Nat) (l : List α) :
    (sortAsc key l).filter (fun y => decide (key y = k)) =
      l.filter (fun y => decide (key y = k)) := by
  induction l with
  | nil => rfl
  | cons x xs ih =>
    have hstep : sortAsc key (x :: xs) =
        insertStable (fun a b => decide (key a < key b)) x (sortAsc key xs) := rfl
    rw [hstep, filter_insertStable, List.filter_cons]
    by_cases hx : key x = k
    · rw [if_pos hx, if_pos (by simpa using hx), ih]
    · rw [if_neg hx, if_neg (by simpa using hx), ih]

theorem insertStable_eq_cons (key : α → Nat) (x : α) (l : List α)
    (h : ∀ y ∈ l, key x ≤ key y) :
    insertStable (fun a b => decide (key a < key b)) x l = x :: l := by
  cases l with
  | nil => rfl
  | cons y ys =>
    have hxy := h y (List.mem_cons_self y ys)
    rw [insertStable, if_neg (by simpa using Nat.not_lt.mpr hxy)]

theorem sortAsc_eq_self (key : α → Nat) {l : List α}
    (h : List.Pairwise (fun a b => key a ≤ key b) l) : sortAsc key l = l := by
  induction l with
  | nil => rfl
  | cons x xs ih =>
    rw [List.pairwise_cons] at h
    have hstep : sortAsc key (x :: xs) =
        insertStable (fun a b => decide (key a < key b)) x (sortAsc key xs) := rfl
    rw [hstep, ih h.2, insertStable_eq_cons key x xs h.1]

end SortLemmas

section TrimLemmas

variable {α : Type}

theorem trimTail_eq_drop (cap : Nat) (l : List α) :
    trimTail cap l = l.drop (l.length - cap) := by
  rw [trimTail]
  split
  · rfl
  · rename_i h
    rw [Nat.sub_eq_zero_of_le (Nat.le_of_not_lt h), List.drop_zero]

theorem trimTail_length_le (cap : Nat) (l : List α) :
    (trimTail cap l).length ≤ cap := by
  rw [trimTail_eq_drop, List.length_drop]
  omega

theorem trimTail_length_of_le {cap : Nat} {l : List α} (h : cap ≤ l.length) :
    (trimTail cap l).length = cap := by
  rw [trimTail_eq_drop, List.length_drop]
  omega

theorem trimTail_eq_self {cap : Nat} {l : List α} (h : l.length ≤ cap) :
    trimTail cap l = l := by
  rw [trimTail_eq_drop, Nat.sub_eq_zero_of_le h, List.drop_zero]

theorem trimTail_sublist (cap : Nat) (l : List α) :
    (trimTail cap l).Sublist l := by
  rw [trimTail_eq_drop]
  exact List.drop_sublist _ l

end TrimLemmas

theorem pairwise_lt_of_le_nodup {α : Type} (key : α → Nat) {l : List α}
    (hs : List.Pairwise (fun a b => key a ≤ key b) l)
    (hn : (l.map key).Nodup) :
    List.Pairwise (fun a b => key a < key b) l := by
  have hne : List.Pairwise (fun a b => key a ≠ key b) l := List.pairwise_map.mp hn
  exact (hs.and hne).imp fun h => lt_of_le_of_ne h.1 h.2

theorem fsLookup_fsRemove (fs : FileStore) (p q : DataKey) :
    fsLookup (fsRemove fs p) q = if p = q then none else fsLookup fs q := by
  induction fs with
  | nil =>
    simp only [fsRemove, List.filter_nil, fsLookup]
    split <;> rfl
  | cons e rest ih =>
    obtain ⟨ep, ec⟩ := e
    simp only [fsRemove] at ih ⊢
    rw [List.filter_cons]
    by_cases hep : ep = p
    · rw [if_neg (by simp [hep]), ih]
      by_cases hpq : p = q
      · rw [if_pos hpq, if_pos hpq]
      · rw [if_neg hpq, if_neg hpq, fsLookup, if_neg (by rw [hep]; exact hpq)]
    · rw [if_pos (by simp [hep]), fsLookup]
      by_cases heq : ep = q
      · have hpq : p ≠ q := fun h => hep (heq.trans h.symm)
        rw [if_pos heq, if_neg hpq, fsLookup, if_pos heq]
      · rw [if_neg heq, ih]
        by_cases hpq : p = q
        · rw [if_pos hpq, if_pos hpq]
        · rw [if_neg hpq, if_neg hpq, fsLookup, if_neg heq]

/-- Claim C5: when the dated archive for the view's date already exists, the
rotation discards the current view without overwriting the archive: the
archive's contents are unchanged, `historical.json` is removed, and the
rotation completes without raising. -/
theorem c5_rotation_preserves_existing_archive (archiveDate : Nat)
    (fs : FileStore) (a : List Nat)
    (h : fsLookup fs (DataKey.archive archiveDate) = some a) :
    fsLookup (rotate_historical_file archiveDate fs).1
        (DataKey.archive archiveDate) = some a ∧
    (rotate_historical_file archiveDate fs).2 = true ∧
    fsLookup (rotate_historical_file archiveDate fs).1 DataKey.historical = none := by
  cases hh : fsLookup fs DataKey.historical with
  | none =>
    have h1 : rotate_historical_file archiveDate fs = (fs, true) := by
      simp only [rotate_historical_file, hh]
    rw [h1]
    exact ⟨h, rfl, hh⟩
  | some content =>
    have h1 : rotate_historical_file archiveDate fs =
        (fsRemove fs DataKey.historical, true) := by
      simp only [rotate_historical_file, hh, h]
    rw [h1]
    refine ⟨?_, rfl, ?_⟩
    · rw [fsLookup_fsRemove, if_neg (by simp)]
      exact h
    · rw [fsLookup_fsRemove, if_pos rfl]

/-- Claim C5 witness: a concrete store in which the dated archive for the
view's date already exists. -/
theorem c5_rotation_witness :
    fsLookup [(DataKey.archive 7, [1, 2]), (DataKey.historical, [3])]
        (DataKey.archive 7) = some [1, 2] ∧
    (fsLookup (rotate_historical_file 7
          [(DataKey.archive 7, [1, 2]), (DataKey.historical, [3])]).1
        (DataKey.archive 7) = some [1, 2] ∧
      (rotate_historical_file 7
          [(DataKey.archive 7, [1, 2]), (DataKey.historical, [3])]).2 = true ∧
      fsLookup (rotate_historical_file 7
          [(DataKey.archive 7, [1, 2]), (DataKey.historical, [3])]).1
        DataKey.historical = none) :=
  ⟨by decide, c5_rotation_preserves_existing_archive 7
    [(DataKey.archive 7, [1, 2]), (DataKey.historical, [3])] [1, 2] (by decide)⟩

/-- Claim C10: when no row of a non-empty processed series lies within the
recency cutoff, the recent selection falls back to the whole series, and the
recent selection is empty exactly when the input series is empty. -/
theorem c10_recent_fallback (cutoff : Nat) (rows : List MinuteCandle) :
    ((∀ r ∈ rows, r.time < cutoff) → save_recent_select cutoff rows = rows) ∧
    (save_recent_select cutoff rows = [] ↔ rows = []) := by
  constructor
  · intro h
    have hfil : rows.filter (fun r => decide (cutoff ≤ r.time)) = [] := by
      rw [List.filter_eq_nil_iff]
      intro r hr
      simpa using Nat.not_le.mpr (h r hr)
    simp [save_recent_select, hfil]
  · simp only [save_recent_select]
    split
    · exact Iff.rfl
    · rename_i hne
      constructor
      · intro hf
        exact absurd (by rw [hf]; rfl) hne
      · intro hr
        subst hr
        simp at hne

/-- Claim C10 witness: a series entirely older than the cutoff is republished
whole, and is the only way the selection can be empty. -/
theorem c10_recent_fallback_witness :
    ((∀ r ∈ [(⟨1, 1, 1⟩ : MinuteCandle)], r.time < 100) →
      save_recent_select 100 [⟨1, 1, 1⟩] = [⟨1, 1, 1⟩]) ∧
    (save_recent_select 100 [⟨1, 1, 1⟩] = [] ↔
      [(⟨1, 1, 1⟩ : MinuteCandle)] = []) :=
  c10_recent_fallback 100 [⟨1, 1, 1⟩]

theorem dumpRow_sanitized (row : List Cell) :
    dumpRow false (row.map sanitizeCell) = some (row.map cellToken) := by
  induction row with
  | nil => rfl
  | cons c cs ih =>
    rw [List.map_cons, List.map_cons, dumpRow, ih]
    cases c <;> rfl

theorem write_json_records_eq (records : List (List Cell)) :
    write_json_records records =
      some (records.map (fun row => row.map cellToken)) := by
  induction records with
  | nil => rfl
  | cons r rs ih =>
    have ih2 : json_dump false (rs.map (fun row => row.map sanitizeCell)) =
        some (rs.map (fun row => row.map cellToken)) := ih
    rw [write_json_records, List.map_cons, json_dump, dumpRow_sanitized, ih2,
      List.map_cons]

theorem cellToken_clean (c : Cell) : cleanToken (cellToken c) := by
  cases c <;> simp [cellToken, sanitizeCell, cleanToken]

/-- Claim C6 (amended): every view serialized through `write_json_records`
(the scalable generator's recent.json, historical.json and daily archives)
contains no bare NaN / Infinity / -Infinity token: every special value is
replaced by an explicit null before serialization.  The legacy
`process_data.save_recent_data` path, by contrast, serializes with the
`json.dump` defaults and is exempted (see the counterexample). -/
theorem c6_write_json_records_strict (records : List (List Cell)) :
    StrictSerializationSpec records := by
  refine ⟨records.map (fun row => row.map cellToken),
    write_json_records_eq records, by simp, ?_, ?_⟩
  · intro row hrow t ht
    rw [List.mem_map] at hrow
    obtain ⟨r, _, rfl⟩ := hrow
    rw [List.mem_map] at ht
    obtain ⟨c, _, rfl⟩ := ht
    exact cellToken_clean c
  · intro i row hrow
    refine ⟨row.map cellToken, ?_, by simp, ?_⟩
    · rw [List.getElem?_map, hrow]
      rfl
    · intro j c hc
      constructor
      · rintro (rfl | rfl | rfl) <;> (rw [List.getElem?_map, hc] ; rfl)
      · rintro q rfl
        rw [List.getElem?_map, hc]
        rfl

/-- Claim C6 witness: concrete serialization of a record containing NaN. -/
theorem c6_write_json_records_witness :
    StrictSerializationSpec [[Cell.nan, Cell.num 3]] :=
  c6_write_json_records_strict [[Cell.nan, Cell.num 3]]

/-- Claim C6 counterexample: the `process_data.save_recent_data` publisher
path serializes with the `json.dump` default `allow_nan=True` and no
replacement, so an infinite value is emitted as the bare token `Infinity`,
not as null — refuting the claim for "every published output path". -/
theorem c6_counterexample :
    save_recent_data_dump [[Cell.inf]] = some [[JsonToken.infinityTok]] ∧
    JsonToken.infinityTok ≠ JsonToken.nullTok :=
  ⟨rfl, by decide⟩

/-- Claim C3: the `ma_N_valid` column has one entry per candle row, and the
entry at row `i` is false exactly when fewer than `N` rows exist up to and
including row `i`; this holds for every window length and every series
length, including the empty series. -/
theorem c3_ma_valid_flags (N : Nat) (v : List ℚ) :
    (ma_valid_column N v).length = v.length ∧
    ∀ i, i < v.length →
      ((ma_valid_column N v)[i]? = some false ↔ i + 1 < N) := by
  constructor
  · simp [ma_valid_column]
  · intro i hi
    have hget : (ma_valid_column N v)[i]? =
        some (decide (N ≤ rolling_count N v i)) := by
      rw [ma_valid_column, List.getElem?_map, List.getElem?_range hi]
      rfl
    have hcount : rolling_count N v i = (i + 1) - (i + 1 - N) := by
      rw [rolling_count, List.length_drop, List.length_take,
        Nat.min_eq_left (by omega)]
    rw [hget, hcount]
    simp only [Option.some.injEq, decide_eq_false_iff_not]
    omega

/-- Claim C3 witness: the 50-candle window over a 51-row series. -/
theorem c3_ma_valid_witness :
    (ma_valid_column 50 (List.replicate 51 (1 : ℚ))).length =
      (List.replicate 51 (1 : ℚ)).length ∧
    (10 < (List.replicate 51 (1 : ℚ)).length ∧
      ((ma_valid_column 50 (List.replicate 51 (1 : ℚ)))[10]? = some false ↔
        10 + 1 < 50)) :=
  ⟨(c3_ma_valid_flags 50 (List.replicate 51 1)).1,
    by decide,
    (c3_ma_valid_flags 50 (List.replicate 51 1)).2 10 (by decide)⟩

theorem load_some_eq {shards : List CsvShard} {l : List Sample}
    (h : load_all_historical_data shards = some l) :
    l = dropDuplicatesKeepLast Sample.timestamp
        (sortAsc Sample.timestamp (discoveryConcat shards)) := by
  rw [load_all_historical_data] at h
  split at h
  · exact absurd h (by simp)
  · split at h
    · exact absurd h (by simp)
    · exact (Option.some_inj.mp h).symm

/-- Claim C1 (amended): the Shard Loader output has each timestamp exactly
once, chronologically sorted, and the record kept for a timestamp is the last
occurrence of it in the loader's concatenation order — but that order lists
shards newest-modification-first, so on an overlap the record of the
least-recently-modified shard survives, not that of the most-recently
discovered one (see the counterexample). -/
theorem c1_loader_keep_last_in_file_order (shards : List CsvShard)
    (l : List Sample) (h : load_all_historical_data shards = some l) :
    LoaderSpec shards l := by
  have hl := load_some_eq h
  subst hl
  refine ⟨nodup_map_dropDup _ _, ?_, ?_, ?_⟩
  · exact List.Pairwise.sublist (dropDup_sublist _ _)
      (sortAsc_sorted Sample.timestamp _)
  · intro r hr
    have hlast := filter_getLast_dropDup hr
    rwa [filter_sortAsc] at hlast
  · intro t ht
    rw [mem_map_key_dropDup]
    exact ((sortAsc_perm Sample.timestamp _).map Sample.timestamp).mem_iff.mpr ht

/-- Claim C1 witness: two shards overlapping at timestamp 0, loaded. -/
theorem c1_loader_witness :
    load_all_historical_data
        [⟨1, some [⟨0, 10, 0⟩, ⟨5, 11, 0⟩]⟩, ⟨2, some [⟨0, 20, 1⟩]⟩] =
      some [⟨0, 10, 0⟩, ⟨5, 11, 0⟩] ∧
    LoaderSpec [⟨1, some [⟨0, 10, 0⟩, ⟨5, 11, 0⟩]⟩, ⟨2, some [⟨0, 20, 1⟩]⟩]
      [⟨0, 10, 0⟩, ⟨5, 11, 0⟩] :=
  ⟨by decide, c1_loader_keep_last_in_file_order
    [⟨1, some [⟨0, 10, 0⟩, ⟨5, 11, 0⟩]⟩, ⟨2, some [⟨0, 20, 1⟩]⟩]
    [⟨0, 10, 0⟩, ⟨5, 11, 0⟩] (by decide)⟩

/-- Claim C1 counterexample: shard `B` (modification time 2) is more recently
discovered than shard `A` (modification time 1); both hold timestamp 0.  The
claim says B's record (price 20) must be kept, but the loader keeps A's
record (price 10): the mtime-descending file order puts the newest shard
first, so keep-last dedup selects the oldest shard's row. -/
theorem c1_most_recent_shard_loses :
    load_all_historical_data [⟨1, some [⟨0, 10, 0⟩]⟩, ⟨2, some [⟨0, 20, 0⟩]⟩] =
      some [⟨0, 10, 0⟩] ∧
    (⟨0, 10, 0⟩ : Sample) ≠ ⟨0, 20, 0⟩ :=
  ⟨by decide, by decide⟩

theorem shardRows_ne_nil {s : CsvShard} {df : List Sample}
    (h : shardRows s = some df) : df ≠ [] := by
  rw [shardRows] at h
  split at h
  · exact absurd h (by simp)
  · split at h
    · exact absurd h (by simp)
    · rename_i hne
      rw [Option.some_inj] at h
      subst h
      exact fun hnil => hne (by rw [hnil]; rfl)

/-- Claim C9: with no shard files, or with every shard file empty or
unparseable, the loader returns the distinguished no-data result `none`
(never `some []`), and the pipeline driver short-circuits to its normal
no-data outcome without raising. -/
theorem c9_no_data_short_circuit :
    (load_all_historical_data [] = none ∧ process_csv_to_json [] = none) ∧
    (∀ shards : List CsvShard,
      (∀ s ∈ shards, s.parsed = none ∨ s.parsed = some []) →
        load_all_historical_data shards = none ∧
        process_csv_to_json shards = none) ∧
    (∀ (shards : List CsvShard) (l : List Sample),
      load_all_historical_data shards = some l → l ≠ []) := by
  refine ⟨⟨rfl, rfl⟩, ?_, ?_⟩
  · intro shards h
    have hload : load_all_historical_data shards = none := by
      rw [load_all_historical_data]
      split
      · rfl
      · rw [if_pos ?_]
        rw [List.isEmpty_iff, List.filterMap_eq_nil_iff]
        intro s hs
        have hs2 : s ∈ shards := (stableSort_perm _ shards).mem_iff.mp hs
        rcases h s hs2 with hn | he
        · rw [shardRows, hn]
        · rw [shardRows, he]
          rfl
    exact ⟨hload, by simp only [process_csv_to_json, hload]⟩
  · intro shards l h
    rw [load_all_historical_data] at h
    split at h
    · exact absurd h (by simp)
    · split at h
      · exact absurd h (by simp)
      · rename_i hne
        have hl := (Option.some_inj.mp h).symm
        have hflat : ((sortDescMtime shards).filterMap shardRows).flatten ≠ [] := by
          cases hdfs : (sortDescMtime shards).filterMap shardRows with
          | nil =>
            rw [hdfs] at hne
            simp at hne
          | cons d ds =>
            have hd : d ∈ (sortDescMtime shards).filterMap shardRows := by
              rw [hdfs]
              exact List.mem_cons_self _ _
            obtain ⟨s, _, hsd⟩ := List.mem_filterMap.mp hd
            obtain ⟨x, xs, hx⟩ := List.exists_cons_of_ne_nil (shardRows_ne_nil hsd)
            rw [hx, List.flatten_cons, List.cons_append]
            exact List.cons_ne_nil x _
        have hsort : sortAsc Sample.timestamp
            ((sortDescMtime shards).filterMap shardRows).flatten ≠ [] := by
          intro hnil
          have hlen := (sortAsc_perm Sample.timestamp
            ((sortDescMtime shards).filterMap shardRows).flatten).length_eq
          rw [hnil] at hlen
          exact hflat (List.length_eq_zero.mp hlen.symm)
        rw [hl]
        exact dropDup_ne_nil hsort

/-- Claim C9 witness: one unparseable shard and one empty shard. -/
theorem c9_no_data_witness :
    (∀ s ∈ [(⟨5, none⟩ : CsvShard), ⟨7, some []⟩],
      s.parsed = none ∨ s.parsed = some []) ∧
    (load_all_historical_data [(⟨5, none⟩ : CsvShard), ⟨7, some []⟩] = none ∧
      process_csv_to_json [(⟨5, none⟩ : CsvShard), ⟨7, some []⟩] = none) :=
  ⟨by decide, c9_no_data_short_circuit.2.1
    [(⟨5, none⟩ : CsvShard), ⟨7, some []⟩] (by decide)⟩

theorem bucket_keys_mem {w : Nat} {samples : List Sample} {k : Nat} :
    k ∈ bucket_keys w samples ↔ bucket_samples w k samples ≠ [] := by
  rw [bucket_keys]
  have h1 : k ∈ dropDuplicatesKeepLast id
        (samples.map (fun s => s.timestamp / w)) ↔
      k ∈ samples.map (fun s => s.timestamp / w) := by
    have h2 := mem_map_key_dropDup id (samples.map (fun s => s.timestamp / w)) k
    simpa using h2
  rw [h1, List.mem_map]
  constructor
  · rintro ⟨s, hs, hsk⟩ hnil
    have hmem : s ∈ bucket_samples w k samples := by
      rw [bucket_samples, List.mem_filter]
      exact ⟨hs, by simpa using hsk⟩
    rw [hnil] at hmem
    simp at hmem
  · intro hne
    obtain ⟨s, hs⟩ := List.exists_mem_of_ne_nil _ hne
    rw [bucket_samples, List.mem_filter] at hs
    exact ⟨s, hs.1, by simpa using hs.2⟩

theorem bucket_keys_sorted {w : Nat} {samples : List Sample}
    (hs : List.Pairwise (fun a b : Sample => a.timestamp ≤ b.timestamp) samples) :
    List.Pairwise (fun a b : Nat => a < b) (bucket_keys w samples) := by
  have h1 : List.Pairwise (fun a b : Nat => a ≤ b)
      (samples.map (fun s => s.timestamp / w)) :=
    List.pairwise_map.mpr (hs.imp fun h => Nat.div_le_div_right h)
  have h2 : List.Pairwise (fun a b : Nat => a ≤ b) (bucket_keys w samples) :=
    List.Pairwise.sublist (dropDup_sublist id _) h1
  have h3 : ((bucket_keys w samples).map id).Nodup := nodup_map_dropDup id _
  rw [List.map_id] at h3
  exact pairwise_lt_of_le_nodup id h2 (by rwa [List.map_id])

theorem resample_times (w : Nat) (samples : List Sample) :
    (resample_agg w samples).map MinuteCandle.time =
      (bucket_keys w samples).map (fun k => k * w) := by
  rw [resample_agg, List.map_map]
  rfl

theorem bucket_agg_fields {w k : Nat} {samples : List Sample}
    (h : bucket_samples w k samples ≠ []) :
    CandleAggOf w k samples (bucket_agg w k samples) := by
  refine ⟨rfl, ?_, rfl⟩
  refine ⟨(bucket_samples w k samples).getLast h,
    List.getLast?_eq_getLast _ h, ?_⟩
  show (match (bucket_samples w k samples).getLast? with
        | some s => s.price
        | none => 0) = ((bucket_samples w k samples).getLast h).price
  rw [List.getLast?_eq_getLast _ h]

/-- Claim C4 (amended): for a chronologically sorted sample series and a
positive bucket width, the resampler's candle times are strictly increasing
and on-grid (each a multiple of the width), consecutive candles are a
positive multiple of the width apart (one width exactly only when no bucket
in between is empty), and an empty bucket contributes no row at all — in
particular no zero-valued row.  The original claim's "consecutive time
values differ by exactly the bucket width" fails when a bucket is empty
(see the counterexample). -/
theorem c4_resampler_grid (w : Nat) (samples : List Sample) (hw : 0 < w)
    (hs : List.Pairwise (fun a b : Sample => a.timestamp ≤ b.timestamp) samples) :
    GridSpec w samples := by
  have hkeys := bucket_keys_sorted (w := w) hs
  refine ⟨?_, ?_, ?_, ?_⟩
  · rw [resample_agg, List.pairwise_map]
    refine hkeys.imp ?_
    intro a b h
    show a * w < b * w
    exact Nat.mul_lt_mul_of_lt_of_le h (Nat.le_refl w) hw
  · intro c hc
    rw [resample_agg, List.mem_map] at hc
    obtain ⟨k, _, rfl⟩ := hc
    exact dvd_mul_left w k
  · apply List.Pairwise.chain'
    rw [resample_agg, List.pairwise_map]
    refine hkeys.imp ?_
    intro a b h
    refine ⟨b - a, by omega, ?_⟩
    show b * w = a * w + (b - a) * w
    rw [← Nat.add_mul, Nat.add_sub_cancel' (Nat.le_of_lt h)]
  · intro k hk
    rw [resample_times, List.mem_map]
    rintro ⟨k2, hk2, hkk⟩
    have hk2k : k2 = k := Nat.eq_of_mul_eq_mul_right hw hkk
    subst hk2k
    exact bucket_keys_mem.mp hk2 hk

/-- Claim C4 witness: two samples one bucket apart with width 60. -/
theorem c4_resampler_grid_witness :
    0 < 60 ∧
    List.Pairwise (fun a b : Sample => a.timestamp ≤ b.timestamp)
      [⟨0, 1, 1⟩, ⟨60, 2, 2⟩] ∧
    GridSpec 60 [⟨0, 1, 1⟩, ⟨60, 2, 2⟩] :=
  ⟨by decide, by decide,
    c4_resampler_grid 60 [⟨0, 1, 1⟩, ⟨60, 2, 2⟩] (by decide) (by decide)⟩

/-- Claim C4 counterexample: samples at 0 s and 120 s with a 60-second bucket
width leave bucket 1 empty, so the two consecutive candles sit at times 0 and
120 — not one bucket width apart, refuting "consecutive time values differ by
exactly the configured bucket width". -/
theorem c4_gap_counterexample :
    (resample_agg 60 [⟨0, 1, 1⟩, ⟨120, 2, 2⟩]).map MinuteCandle.time = [0, 120] ∧
    (120 : Nat) ≠ 0 + 60 :=
  ⟨by decide, by decide⟩

/-- Claim C8: for a sorted sample series, every non-empty bucket produces a
candle whose price is the last sample value in the bucket and whose metric is
the unweighted arithmetic mean over the bucket's samples; every candle comes
from a non-empty bucket this way; candle times are unique; and an empty
bucket produces no candle (no interpolation or carry-forward). -/
theorem c8_resampler_aggregates (w : Nat) (samples : List Sample) (hw : 0 < w)
    (_hs : List.Pairwise (fun a b : Sample => a.timestamp ≤ b.timestamp) samples) :
    ResampleSpec w samples := by
  refine ⟨?_, ?_, ?_, ?_⟩
  · intro k hk
    refine ⟨bucket_agg w k samples, ?_, bucket_agg_fields hk⟩
    rw [resample_agg, List.mem_map]
    exact ⟨k, bucket_keys_mem.mpr hk, rfl⟩
  · intro c hc
    rw [resample_agg, List.mem_map] at hc
    obtain ⟨k, hk, rfl⟩ := hc
    exact ⟨k, bucket_keys_mem.mp hk, bucket_agg_fields (bucket_keys_mem.mp hk)⟩
  · rw [resample_times]
    refine List.Nodup.map ?_ ?_
    · intro a b hab
      exact Nat.eq_of_mul_eq_mul_right hw hab
    · have h3 := nodup_map_dropDup id (samples.map (fun s => s.timestamp / w))
      rw [List.map_id] at h3
      exact h3
  · intro k hk c hc hct
    rw [resample_agg, List.mem_map] at hc
    obtain ⟨k2, hk2, rfl⟩ := hc
    have hk2k : k2 = k := Nat.eq_of_mul_eq_mul_right hw hct
    subst hk2k
    exact bucket_keys_mem.mp hk2 hk

/-- Claim C8 witness: width 60 over a sorted three-sample series. -/
theorem c8_resampler_witness :
    0 < 60 ∧
    List.Pairwise (fun a b : Sample => a.timestamp ≤ b.timestamp)
      [⟨0, 1, 1⟩, ⟨30, 2, 3⟩, ⟨70, 4, 5⟩] ∧
    ResampleSpec 60 [⟨0, 1, 1⟩, ⟨30, 2, 3⟩, ⟨70, 4, 5⟩] :=
  ⟨by decide, by decide,
    c8_resampler_aggregates 60 [⟨0, 1, 1⟩, ⟨30, 2, 3⟩, ⟨70, 4, 5⟩]
      (by decide) (by decide)⟩

theorem strict_nodup_times {l : List MinuteCandle} (h : strictByTime l) :
    (l.map MinuteCandle.time).Nodup :=
  List.pairwise_map.mpr (List.Pairwise.imp (fun h12 => Nat.ne_of_lt h12) h)

theorem strict_sorted_le {l : List MinuteCandle} (h : strictByTime l) :
    List.Pairwise (fun a b : MinuteCandle => a.time ≤ b.time) l :=
  List.Pairwise.imp (fun h12 => Nat.le_of_lt h12) h

theorem mergeCore_spec (cap : Nat) (ex newD : List MinuteCandle) :
    MergeSpec cap ex newD (trimTail cap (viewMergeCombined ex newD)) := by
  have hperm : (viewMergeCombined ex newD).Perm
      (dropDuplicatesKeepLast MinuteCandle.time (ex ++ newD)) :=
    sortAsc_perm MinuteCandle.time _
  have hsubR : (trimTail cap (viewMergeCombined ex newD)).Sublist
      (viewMergeCombined ex newD) := trimTail_sublist _ _
  have hnodupM : ((viewMergeCombined ex newD).map MinuteCandle.time).Nodup :=
    ((hperm.map MinuteCandle.time).nodup_iff).mpr (nodup_map_dropDup _ _)
  have hsortM : List.Pairwise (fun a b : MinuteCandle => a.time ≤ b.time)
      (viewMergeCombined ex newD) := sortAsc_sorted MinuteCandle.time _
  have hstrictM : List.Pairwise (fun a b : MinuteCandle => a.time < b.time)
      (viewMergeCombined ex newD) :=
    pairwise_lt_of_le_nodup MinuteCandle.time hsortM hnodupM
  have hmemM : ∀ {r : MinuteCandle}, r ∈ viewMergeCombined ex newD →
      r ∈ dropDuplicatesKeepLast MinuteCandle.time (ex ++ newD) :=
    fun hr => hperm.mem_iff.mp hr
  have htimesM : ∀ {t : Nat},
      t ∈ (ex ++ newD).map MinuteCandle.time ↔
        t ∈ (viewMergeCombined ex newD).map MinuteCandle.time := by
    intro t
    rw [(hperm.map MinuteCandle.time).mem_iff]
    exact (mem_map_key_dropDup MinuteCandle.time (ex ++ newD) t).symm
  have hlenM : (viewMergeCombined ex newD).length =
      (dropDuplicatesKeepLast id ((ex ++ newD).map MinuteCandle.time)).length := by
    rw [hperm.length_eq, ← map_key_dropDup MinuteCandle.time (ex ++ newD),
      List.length_map]
  refine ⟨?_, ?_, ?_, ?_, ?_, ?_, ?_, ?_⟩
  · intro r hr
    exact List.mem_append.mp (mem_of_mem_dropDup (hmemM (hsubR.subset hr)))
  · intro r hr hk
    exact dropDup_append_mem_right (hmemM (hsubR.subset hr)) hk
  · exact List.Nodup.sublist (hsubR.map MinuteCandle.time) hnodupM
  · exact List.Pairwise.sublist hsubR hstrictM
  · exact trimTail_length_le cap _
  · intro hcap t ht
    have hRM : trimTail cap (viewMergeCombined ex newD) =
        viewMergeCombined ex newD :=
      trimTail_eq_self (by rw [hlenM]; exact hcap)
    rw [hRM]
    exact htimesM.mp ht
  · intro hcap
    exact trimTail_length_of_le (by rw [hlenM]; exact hcap)
  · intro r hr hnot q hq
    have hrt : r.time ∈ (viewMergeCombined ex newD).map MinuteCandle.time :=
      htimesM.mp (List.mem_map_of_mem _ (List.mem_append.mpr hr))
    have hsplit : viewMergeCombined ex newD =
        (viewMergeCombined ex newD).take
            ((viewMergeCombined ex newD).length - cap) ++
          trimTail cap (viewMergeCombined ex newD) := by
      rw [trimTail_eq_drop, List.take_append_drop]
    rw [hsplit, List.map_append] at hrt
    rcases List.mem_append.mp hrt with hx | hx
    · obtain ⟨x, hxmem, hxt⟩ := List.mem_map.mp hx
      have hpair := hstrictM
      rw [hsplit] at hpair
      have hlt := (List.pairwise_append.mp hpair).2.2 x hxmem q hq
      rw [← hxt]
      exact hlt
    · exact absurd hx hnot

theorem generate_view_json_eq (cap : Nat) {ex newD : List MinuteCandle}
    (hex : strictByTime ex) (hnew : strictByTime newD) :
    generate_view_json cap ex newD = trimTail cap (viewMergeCombined ex newD) := by
  simp only [generate_view_json]
  by_cases he : ex.isEmpty
  · rw [if_pos he]
    have hex2 : ex = [] := List.isEmpty_iff.mp he
    subst hex2
    rw [viewMergeCombined, List.nil_append,
      dropDup_eq_self (strict_nodup_times hnew),
      sortAsc_eq_self MinuteCandle.time (strict_sorted_le hnew)]
  · rw [if_neg he]
    by_cases hn : newD.isEmpty
    · rw [if_pos hn]
      have hn2 : newD = [] := List.isEmpty_iff.mp hn
      subst hn2
      rw [viewMergeCombined, List.append_nil,
        dropDup_eq_self (strict_nodup_times hex),
        sortAsc_eq_self MinuteCandle.time (strict_sorted_le hex)]
    · rw [if_neg hn]

/-- Claim C2: for a prior published view and a newly computed candle batch
(both satisfying the published-View invariant of strictly increasing times),
the merger's output is the union of the two deduplicated by `time`, the new
computation's row replacing the prior row on a duplicate time, sorted by
time ascending, and trimmed to the configured row cap (2880 for the recent
view, 9000 for the historical view) keeping the most recent rows and
dropping the oldest first. -/
theorem c2_view_merger (ex newD : List MinuteCandle)
    (hex : strictByTime ex) (hnew : strictByTime newD) :
    (∀ cap, MergeSpec cap ex newD (generate_view_json cap ex newD)) ∧
    RECENT_JSON_LIMIT = 2880 ∧ HISTORICAL_JSON_LIMIT = 9000 ∧
    generate_recent_json ex newD = generate_view_json RECENT_JSON_LIMIT ex newD ∧
    generate_historical_json ex newD =
      generate_view_json HISTORICAL_JSON_LIMIT ex newD := by
  refine ⟨?_, rfl, rfl, rfl, rfl⟩
  intro cap
  rw [generate_view_json_eq cap hex hnew]
  exact mergeCore_spec cap ex newD

/-- Claim C2 witness: a prior view and new data overlapping at time 3. -/
theorem c2_view_merger_witness :
    strictByTime [⟨1, 1, 1⟩, ⟨3, 3, 3⟩] ∧
    strictByTime [⟨2, 2, 2⟩, ⟨3, 4, 4⟩] ∧
    MergeSpec 2880 [⟨1, 1, 1⟩, ⟨3, 3, 3⟩] [⟨2, 2, 2⟩, ⟨3, 4, 4⟩]
      (generate_view_json 2880 [⟨1, 1, 1⟩, ⟨3, 3, 3⟩] [⟨2, 2, 2⟩, ⟨3, 4, 4⟩]) :=
  ⟨by decide, by decide,
    (c2_view_merger [⟨1, 1, 1⟩, ⟨3, 3, 3⟩] [⟨2, 2, 2⟩, ⟨3, 4, 4⟩]
      (by decide) (by decide)).1 2880⟩

/-- Claim C7: merging a published view (sorted, deduplicated by time) with
itself is idempotent — the result is the view itself trimmed to the row
cap. -/
theorem c7_merge_idempotent (V : List MinuteCandle) (h : strictByTime V) :
    (∀ cap, generate_view_json cap V V = trimTail cap V) ∧
    generate_recent_json V V = trimTail RECENT_JSON_LIMIT V := by
  have hcore : ∀ cap, generate_view_json cap V V = trimTail cap V := by
    intro cap
    rw [generate_view_json_eq cap h h]
    congr 1
    rw [viewMergeCombined,
      dropDup_append fun a ha => List.mem_map_of_mem MinuteCandle.time ha,
      dropDup_eq_self (strict_nodup_times h),
      sortAsc_eq_self MinuteCandle.time (strict_sorted_le h)]
  exact ⟨hcore, hcore RECENT_JSON_LIMIT⟩

/-- Claim C7 witness: a concrete two-row view merged with itself. -/
theorem c7_merge_idempotent_witness :
    strictByTime [⟨1, 1, 1⟩, ⟨2, 2, 2⟩] ∧
    ((∀ cap, generate_view_json cap [(⟨1, 1, 1⟩ : MinuteCandle), ⟨2, 2, 2⟩]
        [⟨1, 1, 1⟩, ⟨2, 2, 2⟩] = trimTail cap [⟨1, 1, 1⟩, ⟨2, 2, 2⟩]) ∧
      generate_recent_json [(⟨1, 1, 1⟩ : MinuteCandle), ⟨2, 2, 2⟩]
          [⟨1, 1, 1⟩, ⟨2, 2, 2⟩] =
        trimTail RECENT_JSON_LIMIT [⟨1, 1, 1⟩, ⟨2, 2, 2⟩]) :=
  ⟨by decide, c7_merge_idempotent [⟨1, 1, 1⟩, ⟨2, 2, 2⟩] (by decide)⟩

end BTCSpread
